import Mathlib

/-!
Verification of the KTF (Kernel Test Framework) selftest module
(`src/selftest/self.c`) against its natural-language specification.

The repository ships only the selftest source; the framework pieces it
exercises (the sorted reference-counted map `ktf_map`, the assertion
counter, and the version-gated test runner) are declared in headers not
present under `src/`.  Those pieces are modelled here from the spec, each
with a doc comment saying so; the selftest scenarios (key sets, element
counts, handle versions, thread counts) are translated from `self.c`.

Conventions of the shallow embedding:
* C byte strings are `List Nat` of their bytes up to (not including) the
  terminating NUL; the end of the list is the terminator.
* C `int` comparator results are `Int` with the usual sign convention.
* Concurrent execution of atomic operations is modelled as the set of all
  sequential interleavings: a schedule is a list recording, in some order,
  which worker performed each atomic step.
-/

/- ### Concurrency-safe assertion counter (C1, C10) -/

/-- Modelled from the spec: the process-wide assertion counter
(`ktf_get_assertion_count` and its increment, implemented outside `src/`)
is an atomic integer; one assertion evaluation performs exactly one atomic
increment. -/
def atomicIncrement (c : Nat) : Nat := c + 1

/-- Modelled from the spec: reading the counter returns its current value. -/
def counterRead (c : Nat) : Nat := c

/-- Run a schedule of atomic increments: each entry of `sched` is the id of
the worker that performs the next atomic increment.  Any interleaving of
`N` workers, each incrementing exactly once, is `runIncrements c sched`
for some `sched` that is a permutation of the `N` worker ids. -/
def runIncrements (c : Nat) (sched : List Nat) : Nat :=
  sched.foldl (fun acc _ => atomicIncrement acc) c

/-- From `self.c`: `#define NUM_TEST_THREADS 20`. -/
def NUM_TEST_THREADS : Nat := 20

theorem runIncrements_eq_add_length (c : Nat) (sched : List Nat) :
    runIncrements c sched = c + sched.length := by
  induction sched generalizing c with
  | nil => rfl
  | cons x xs ih =>
    simp only [runIncrements, List.foldl_cons, List.length_cons] at *
    rw [ih]
    simp [atomicIncrement]
    omega

/- ### Version-gated test running (C2) -/

/-- A KTF handle as the spec describes it for the version gate: the only
attribute the gate consults is the declared version. -/
structure KtfHandle where
  version : Nat
deriving DecidableEq, Repr

/-- From `self.c` line 37: `KTF_HANDLE_INIT_VERSION(wrongversion_handle, 0)`
declares a handle with version `0`. -/
def wrongversion_handle : KtfHandle := ⟨0⟩

/-- Outcome recorded for one dispatched test. -/
inductive TestOutcome
  | passed
  | failed
  | notRun
deriving DecidableEq, Repr

/-- Modelled from the spec: the runner (not in `src/`) compares the
handle's declared version with the framework's running version before
dispatching a test; on mismatch the body is not invoked and the test is
recorded as not-run.  The body is a state transformer returning the new
state and whether all its assertions passed. -/
def runVersionGated {σ : Type} (running : Nat) (h : KtfHandle)
    (body : σ → σ × Bool) (s : σ) : σ × TestOutcome :=
  if h.version = running then
    let r := body s
    (r.1, if r.2 then TestOutcome.passed else TestOutcome.failed)
  else
    (s, TestOutcome.notRun)

/-- From `self.c` lines 200-204: the body of the `wrongversion` test.  As a
side effect it would log (modelled as setting the flag), and its single
assertion `EXPECT_TRUE(false)` fails. -/
def wrongversion_body : Bool → Bool × Bool := fun _ => (true, false)

/- ### Reference-count lifecycle of one element (C3) -/

/-- Lifecycle state of one map element: its reference count, whether it is
currently linked into (reachable through) the container, and how many
times the free callback has fired for it (from `self.c` lines 89-94,
`myelem_free` records firing in the `freed` payload field). -/
structure RefState where
  refcount : Nat
  inMap : Bool
  freed : Nat
deriving DecidableEq, Repr

/-- Modelled from the spec: `element_init` sets `refcount = 1` (the
initializing caller's reference); the element starts outside any
container with the free callback never fired. -/
def refElemInit : RefState := ⟨1, false, 0⟩

/-- The operations of the refcount lifecycle acting on one element. -/
inductive RefOp
  | insert
  | put
  | remove
deriving DecidableEq, Repr

/-- Modelled from the spec: one lifecycle step on a live element.
`insert` links the element and takes the container's extra reference;
`put` (release) drops one reference and fires the free callback exactly
when the count transitions to zero; `remove` unlinks the element and
transfers the container's reference to the caller, leaving the count
unchanged.  Touching an element whose refcount is already zero is a
use-after-free and has no defined result. -/
def refStep (s : RefState) (op : RefOp) : Option RefState :=
  if s.refcount = 0 then
    none
  else
    match op with
    | RefOp.insert => some { s with refcount := s.refcount + 1, inMap := true }
    | RefOp.put =>
        some { s with
                refcount := s.refcount - 1,
                freed := if s.refcount = 1 then s.freed + 1 else s.freed }
    | RefOp.remove => some { s with inMap := false }

/-- Run a sequence of lifecycle operations from a starting state. -/
def refRun (s : RefState) : List RefOp → Option RefState
  | [] => some s
  | op :: ops => (refStep s op).bind (fun s2 => refRun s2 ops)

/-- Key invariant of the lifecycle: a reachable state has either never
fired the free callback and is still live, or has fired it exactly once
and its refcount has hit zero. -/
def RefInv (s : RefState) : Prop :=
  (s.freed = 0 ∧ 1 ≤ s.refcount) ∨ (s.freed = 1 ∧ s.refcount = 0)

theorem refStep_inv {s s2 : RefState} {op : RefOp} (hinv : RefInv s)
    (hstep : refStep s op = some s2) : RefInv s2 := by
  unfold refStep at hstep
  by_cases hz : s.refcount = 0
  · simp [hz] at hstep
  · rw [if_neg hz] at hstep
    rcases hinv with ⟨hf, hrc⟩ | ⟨hf, hrc⟩
    · cases op with
      | insert =>
        simp only [Option.some.injEq] at hstep
        subst hstep
        exact Or.inl ⟨hf, by show 1 ≤ s.refcount + 1; omega⟩
      | put =>
        simp only [Option.some.injEq] at hstep
        subst hstep
        by_cases h1 : s.refcount = 1
        · exact Or.inr ⟨by simp [h1, hf], by simp [h1]⟩
        · exact Or.inl ⟨by simp [h1, hf], by show 1 ≤ s.refcount - 1; omega⟩
      | remove =>
        simp only [Option.some.injEq] at hstep
        subst hstep
        exact Or.inl ⟨hf, hrc⟩
    · exact absurd hrc hz

theorem refRun_inv (ops : List RefOp) (s t : RefState) (hinv : RefInv s)
    (hrun : refRun s ops = some t) : RefInv t := by
  induction ops generalizing s with
  | nil => simp [refRun] at hrun; rwa [← hrun]
  | cons op ops ih =>
    simp only [refRun] at hrun
    cases hstep : refStep s op with
    | none => rw [hstep] at hrun; simp at hrun
    | some s2 =>
      rw [hstep] at hrun
      exact ih s2 (refStep_inv hinv hstep) hrun

/- ### Claim theorems C1, C2, C3 -/

/-- C1: if N independently scheduled execution units each call the
assertion counter's increment exactly once, a read performed after all
have completed returns the value before they started advanced by exactly
N, under any interleaving; in particular 20 workers (one assertion each,
joined, then read) advance it by exactly 20. -/
theorem thread_counter_advances_exactly_N (before N : Nat)
    (sched : List Nat) (hperm : sched.Perm (List.range N)) :
    counterRead (runIncrements before sched) = before + N ∧
      (N = NUM_TEST_THREADS → counterRead (runIncrements before sched) = before + 20) := by
  have hlen : sched.length = N := by
    rw [hperm.length_eq, List.length_range]
  constructor
  · rw [counterRead, runIncrements_eq_add_length, hlen]
  · intro hN
    rw [counterRead, runIncrements_eq_add_length, hlen, hN]
    rfl

/-- Witness for C1: the 20 selftest workers, scheduled in id order,
advance a counter that starts at 0 to exactly 20. -/
theorem thread_counter_advances_exactly_N_witness :
    counterRead (runIncrements 0 (List.range NUM_TEST_THREADS)) = 0 + NUM_TEST_THREADS ∧
      (NUM_TEST_THREADS = NUM_TEST_THREADS →
        counterRead (runIncrements 0 (List.range NUM_TEST_THREADS)) = 0 + 20) :=
  thread_counter_advances_exactly_N 0 NUM_TEST_THREADS
    (List.range NUM_TEST_THREADS) (List.Perm.refl _)

/-- C2: a test bound to a handle whose declared version differs from the
running framework version is skipped without invoking its body (the state,
including any side-effecting flag only the body sets, is unchanged) and is
recorded as not-run, which is distinct from pass and from fail. -/
theorem wrongversion_skipped {σ : Type} (running : Nat) (h : KtfHandle)
    (body : σ → σ × Bool) (s : σ) (hv : h.version ≠ running) :
    runVersionGated running h body s = (s, TestOutcome.notRun) ∧
      TestOutcome.notRun ≠ TestOutcome.passed ∧
      TestOutcome.notRun ≠ TestOutcome.failed := by
  refine ⟨?_, by decide, by decide⟩
  unfold runVersionGated
  rw [if_neg hv]

/-- Witness for C2: `wrongversion_handle` (version 0) against running
version 1, with the `wrongversion` body and an initially-unset flag: the
flag stays unset and the outcome is not-run. -/
theorem wrongversion_skipped_witness :
    wrongversion_handle.version ≠ 1 ∧
      (runVersionGated 1 wrongversion_handle wrongversion_body false =
          (false, TestOutcome.notRun) ∧
        TestOutcome.notRun ≠ TestOutcome.passed ∧
        TestOutcome.notRun ≠ TestOutcome.failed) :=
  ⟨by decide, wrongversion_skipped 1 wrongversion_handle wrongversion_body false (by decide)⟩

/-- C3: init → insert → release leaves the element alive (refcount 1),
reachable through the container, free callback unfired; the subsequent
remove → release fires the free callback exactly once; and along every
valid operation sequence the callback fires at most once, exactly when the
refcount transitions to zero. -/
theorem mapref_refcount_lifecycle :
    refRun refElemInit [RefOp.insert, RefOp.put] =
        some { refcount := 1, inMap := true, freed := 0 } ∧
      refRun refElemInit [RefOp.insert, RefOp.put, RefOp.remove, RefOp.put] =
        some { refcount := 0, inMap := false, freed := 1 } ∧
      ∀ (ops : List RefOp) (t : RefState), refRun refElemInit ops = some t →
        t.freed ≤ 1 ∧ (t.freed = 1 ↔ t.refcount = 0) := by
  refine ⟨by decide, by decide, ?_⟩
  intro ops t hrun
  have hinv : RefInv t :=
    refRun_inv ops refElemInit t (Or.inl ⟨rfl, le_refl 1⟩) hrun
  rcases hinv with ⟨hf, hrc⟩ | ⟨hf, hrc⟩
  · exact ⟨by omega, by constructor <;> omega⟩
  · exact ⟨by omega, by constructor <;> omega⟩

/-- Witness for C3: running the full `mapref` lifecycle
(insert, release, remove, release) from a fresh element reaches a state
with the callback fired once and refcount zero, satisfying the invariant
conclusion at that concrete run. -/
theorem mapref_refcount_lifecycle_witness :
    RefState.freed { refcount := 0, inMap := false, freed := 1 } ≤ 1 ∧
      (RefState.freed { refcount := 0, inMap := false, freed := 1 } = 1 ↔
        RefState.refcount { refcount := 0, inMap := false, freed := 1 } = 0) :=
  mapref_refcount_lifecycle.2.2 [RefOp.insert, RefOp.put, RefOp.remove, RefOp.put]
    { refcount := 0, inMap := false, freed := 1 } (by decide)

/- ### The sorted reference-counted map (C4 - C9) -/

/-- Modelled from the spec: `KTF_MAX_NAME` is the fixed key capacity
declared in `ktf_map.h`, which is not under `src/`; the spec fixes no
numeric value, only that keys longer than it are silently truncated.  The
concrete capacity used here is 64 bytes. -/
def KTF_MAX_NAME : Nat := 64

/-- A map element as the claims need it: `id` is the identity of the
caller-owned payload the record is embedded in (its address, also carrying
the `order` field of `struct myelem` in the comparator test), `key` the
stored bytes of the NUL-terminated key buffer (list end is the
terminator), `refcount` its reference count. -/
structure KtfMapElem where
  id : Nat
  key : List Nat
  refcount : Nat
deriving DecidableEq, Repr

/-- Modelled from the spec: `ktf_map_elem_init` (implemented outside
`src/`) copies up to `KTF_MAX_NAME` bytes of the key into the element's
fixed buffer, truncating silently if longer and always NUL-terminating,
and sets `refcount = 1`; it never rejects a (non-null) key, so the
embedding is total. -/
def ktf_map_elem_init (i : Nat) (key : List Nat) : KtfMapElem :=
  { id := i, key := key.take KTF_MAX_NAME, refcount := 1 }

/-- A map is the ascending sequence of its linked elements; traversal
(`ktf_map_for_each_entry`) visits them in list order.  The comparator the
C struct stores at `ktf_map_init` is passed explicitly to each operation
of the embedding. -/
abbrev KtfMap := List KtfMapElem

/-- An empty map (`ktf_map_init` with `size == 0`). -/
def ktf_map_init : KtfMap := []

def ktf_map_size (m : KtfMap) : Nat := m.length

/-- Modelled from the spec: `ktf_map_find_first` returns the element with
the minimum key — the first in traversal order — without touching any
refcount; none if the map is empty. -/
def ktf_map_find_first (m : KtfMap) : Option KtfMapElem := m.head?

/-- Modelled from the spec: the default comparator is byte-wise key
comparison, i.e. `strcmp` over the stored NUL-terminated buffers (the end
of the list is the NUL, which compares below every real byte). -/
def strcmpBytes : List Nat → List Nat → Int
  | [], [] => 0
  | [], _ :: _ => -1
  | _ :: _, [] => 1
  | a :: as, b :: bs =>
    if a < b then -1 else if b < a then 1 else strcmpBytes as bs

/-- Link a new element at the position dictated by the comparator,
keeping the sequence ascending; an equal key already present rejects the
insertion. -/
def insertSorted (cmp : List Nat → List Nat → Int) (e : KtfMapElem) :
    List KtfMapElem → Option (List KtfMapElem)
  | [] => some [e]
  | x :: xs =>
    if cmp e.key x.key < 0 then some (e :: x :: xs)
    else if cmp e.key x.key = 0 then none
    else (insertSorted cmp e xs).map (fun l => x :: l)

/-- Modelled from the spec: `ktf_map_insert` takes the container's own
reference (bumping the element's refcount by one), links the element in
comparator order, and fails on a duplicate key. -/
def ktf_map_insert (cmp : List Nat → List Nat → Int) (m : KtfMap)
    (e : KtfMapElem) : Option KtfMap :=
  insertSorted cmp { e with refcount := e.refcount + 1 } m

/-- Find and unlink the element whose key compares equal to `k`,
returning it unchanged together with the remaining sequence. -/
def removeKey (cmp : List Nat → List Nat → Int) (k : List Nat) :
    List KtfMapElem → Option (KtfMapElem × List KtfMapElem)
  | [] => none
  | x :: xs =>
    if cmp k x.key = 0 then some (x, xs)
    else (removeKey cmp k xs).map (fun p => (p.1, x :: p.2))

/-- Modelled from the spec: `ktf_map_remove` unlinks the matching element
and transfers the container's reference to the caller — the refcount is
unchanged and the very element object is handed back; none if no key
matches. -/
def ktf_map_remove (cmp : List Nat → List Nat → Int) (m : KtfMap)
    (k : List Nat) : Option (KtfMapElem × KtfMap) :=
  removeKey cmp k m

/-- Modelled from the spec: `ktf_map_delete_all` unlinks every element and
releases the container's reference on each, firing the free callback
exactly for those whose count thereby reaches zero (i.e. whose refcount
was 1).  Returns the emptied map and the number of callback firings. -/
def ktf_map_delete_all (m : KtfMap) : KtfMap × Nat :=
  ([], (m.filter (fun e => e.refcount == 1)).length)

/-- Build a map by a sequence of insertions, all of which must succeed. -/
def insertAll (cmp : List Nat → List Nat → Int) :
    KtfMap → List KtfMapElem → Option KtfMap
  | m, [] => some m
  | m, e :: es => (ktf_map_insert cmp m e).bind (fun m2 => insertAll cmp m2 es)

/- ### The custom comparator of the `mapcmpfunc` test (C6) -/

/-- Little-endian value of the first (up to) four stored key bytes,
zero-extended past the terminator — what `*((int *)key)` reads from the
NUL-padded key buffer. -/
def intOfKeyBytes : List Nat → Nat
  | [] => 0
  | b :: bs => b + 256 * intOfKeyBytes bs

/-- From `self.c` lines 135-145: `myelem_cmp` reinterprets the raw key
bytes of both elements as integers and orders by their values. -/
def myelem_cmp (key1 key2 : List Nat) : Int :=
  let i1 := intOfKeyBytes (key1.take 4)
  let i2 := intOfKeyBytes (key2.take 4)
  if i1 < i2 then -1
  else if i2 < i1 then 1
  else 0

/-- From `self.c` lines 163-167: element number `n` of the `mapcmpfunc`
test stores `order = n` in its payload and re-initializes its key with the
bytes of that integer; for `0 < n < 256` the string copy stores the single
byte `n` (the next little-endian byte is 0 and terminates the copy). -/
def mkOrderElem (n : Nat) : KtfMapElem := ktf_map_elem_init n [n]

/- ### Comparator laws and sortedness -/

/-- The elements of a map are strictly ascending under the comparator. -/
abbrev MapSorted (cmp : List Nat → List Nat → Int) (l : List KtfMapElem) : Prop :=
  l.Pairwise (fun a b => cmp a.key b.key < 0)

/-- Sign-antisymmetry of a comparator. -/
def CmpAsym (cmp : List Nat → List Nat → Int) : Prop :=
  ∀ a b, cmp a b = -(cmp b a)

/-- Transitivity of a comparator's strict order. -/
def CmpTrans (cmp : List Nat → List Nat → Int) : Prop :=
  ∀ a b c, cmp a b < 0 → cmp b c < 0 → cmp a c < 0

theorem cmp_self_eq_zero {cmp : List Nat → List Nat → Int}
    (hasym : CmpAsym cmp) (a : List Nat) : cmp a a = 0 := by
  have h := hasym a a
  omega

/- ### Claim theorems C4, C6, C7 -/

/-- C4: a key longer than `KTF_MAX_NAME` bytes is stored as exactly its
first `KTF_MAX_NAME` bytes (NUL-terminated at the list end), silently —
initialization still succeeds with `refcount = 1`; in particular a key of
`KTF_MAX_NAME + 2` copies of the byte of the letter x stores exactly
`KTF_MAX_NAME` copies of it. -/
theorem map_keyoverflow_truncates (i : Nat) (key : List Nat)
    (h : KTF_MAX_NAME < key.length) :
    (ktf_map_elem_init i key).key = key.take KTF_MAX_NAME ∧
      (ktf_map_elem_init i key).key.length = KTF_MAX_NAME ∧
      (ktf_map_elem_init i key).refcount = 1 ∧
      (ktf_map_elem_init 0 (List.replicate (KTF_MAX_NAME + 2) 120)).key =
        List.replicate KTF_MAX_NAME 120 := by
  refine ⟨rfl, ?_, rfl, ?_⟩
  · simp only [ktf_map_elem_init, List.length_take]
    omega
  · simp only [ktf_map_elem_init, List.take_replicate]
    congr 1

/-- Witness for C4: the `map_keyoverflow` test key, `KTF_MAX_NAME + 2`
copies of byte 120, exceeds the capacity and is truncated to exactly
`KTF_MAX_NAME` copies. -/
theorem map_keyoverflow_truncates_witness :
    KTF_MAX_NAME < (List.replicate (KTF_MAX_NAME + 2) 120).length ∧
      ((ktf_map_elem_init 0 (List.replicate (KTF_MAX_NAME + 2) 120)).key =
          (List.replicate (KTF_MAX_NAME + 2) 120).take KTF_MAX_NAME ∧
        (ktf_map_elem_init 0 (List.replicate (KTF_MAX_NAME + 2) 120)).key.length =
          KTF_MAX_NAME ∧
        (ktf_map_elem_init 0 (List.replicate (KTF_MAX_NAME + 2) 120)).refcount = 1 ∧
        (ktf_map_elem_init 0 (List.replicate (KTF_MAX_NAME + 2) 120)).key =
          List.replicate KTF_MAX_NAME 120) :=
  ⟨by simp [KTF_MAX_NAME],
    map_keyoverflow_truncates 0 (List.replicate (KTF_MAX_NAME + 2) 120)
      (by simp [KTF_MAX_NAME])⟩

/-- C6: with the integer-reinterpreting comparator `myelem_cmp`, inserting
the three elements carrying order values 3, 2, 1 (in that insertion
sequence) builds a map whose traversal yields the elements in order
1, 2, 3 — the injected comparator's order, not the insertion order. -/
theorem mapcmpfunc_custom_order :
    (insertAll myelem_cmp ktf_map_init
          [mkOrderElem 3, mkOrderElem 2, mkOrderElem 1]).map
        (fun m => m.map KtfMapElem.id) = some [1, 2, 3] ∧
      [mkOrderElem 3, mkOrderElem 2, mkOrderElem 1].map KtfMapElem.id =
        [3, 2, 1] := by
  constructor
  · rfl
  · rfl

/-- C7: on a map in which the container holds the sole remaining reference
to each of its N live elements, `delete_all` fires the free callback
exactly N times and leaves size 0, and running it again on the emptied map
is a no-op firing nothing. -/
theorem delete_all_frees_each_once (m : KtfMap)
    (h : ∀ e ∈ m, e.refcount = 1) :
    (ktf_map_delete_all m).2 = ktf_map_size m ∧
      ktf_map_size (ktf_map_delete_all m).1 = 0 ∧
      ktf_map_delete_all (ktf_map_delete_all m).1 = (ktf_map_init, 0) := by
  have hfilter : m.filter (fun e => e.refcount == 1) = m :=
    List.filter_eq_self.mpr (fun a ha => by simp [h a ha])
  refine ⟨?_, rfl, rfl⟩
  simp only [ktf_map_delete_all, ktf_map_size, hfilter]

/-- Witness for C7: a two-element map whose elements both have refcount 1
(the container's reference only): `delete_all` fires the callback twice,
empties the map, and is a no-op when repeated. -/
theorem delete_all_frees_each_once_witness :
    (∀ e ∈ [KtfMapElem.mk 1 [98, 97, 114] 1, KtfMapElem.mk 2 [102, 111, 111] 1],
        e.refcount = 1) ∧
      ((ktf_map_delete_all
            [KtfMapElem.mk 1 [98, 97, 114] 1, KtfMapElem.mk 2 [102, 111, 111] 1]).2 =
          ktf_map_size
            [KtfMapElem.mk 1 [98, 97, 114] 1, KtfMapElem.mk 2 [102, 111, 111] 1] ∧
        ktf_map_size
            (ktf_map_delete_all
              [KtfMapElem.mk 1 [98, 97, 114] 1,
                KtfMapElem.mk 2 [102, 111, 111] 1]).1 = 0 ∧
        ktf_map_delete_all
            (ktf_map_delete_all
              [KtfMapElem.mk 1 [98, 97, 114] 1,
                KtfMapElem.mk 2 [102, 111, 111] 1]).1 = (ktf_map_init, 0)) :=
  ⟨by decide,
    delete_all_frees_each_once
      [KtfMapElem.mk 1 [98, 97, 114] 1, KtfMapElem.mk 2 [102, 111, 111] 1]
      (by decide)⟩

/- ### Laws of the default comparator -/

theorem strcmpBytes_asym_pair : ∀ (a b : List Nat),
    strcmpBytes a b = -(strcmpBytes b a) := by
  intro a
  induction a with
  | nil => intro b; cases b <;> simp [strcmpBytes]
  | cons x xs ih =>
    intro b
    cases b with
    | nil => simp [strcmpBytes]
    | cons y ys =>
      simp only [strcmpBytes]
      split_ifs <;> first | omega | exact ih ys

theorem strcmpBytes_asym : CmpAsym strcmpBytes := strcmpBytes_asym_pair

theorem strcmpBytes_trans_triple : ∀ (a b c : List Nat),
    strcmpBytes a b < 0 → strcmpBytes b c < 0 → strcmpBytes a c < 0 := by
  intro a
  induction a with
  | nil =>
    intro b c hab hbc
    cases b with
    | nil => simp [strcmpBytes] at hab
    | cons y ys =>
      cases c with
      | nil => simp [strcmpBytes] at hbc
      | cons z zs => simp [strcmpBytes]
  | cons x xs ih =>
    intro b c hab hbc
    cases b with
    | nil => simp [strcmpBytes] at hab
    | cons y ys =>
      cases c with
      | nil => simp [strcmpBytes] at hbc
      | cons z zs =>
        simp only [strcmpBytes] at hab hbc ⊢
        split_ifs at hab hbc ⊢ <;> first | omega | exact ih ys zs hab hbc

theorem strcmpBytes_trans : CmpTrans strcmpBytes := strcmpBytes_trans_triple

/- ### Insertion keeps the map sorted -/

theorem insertSorted_perm (cmp : List Nat → List Nat → Int) (e : KtfMapElem)
    (l l2 : List KtfMapElem) (h : insertSorted cmp e l = some l2) :
    l2.Perm (e :: l) := by
  induction l generalizing l2 with
  | nil =>
    simp only [insertSorted, Option.some.injEq] at h
    rw [← h]
  | cons x xs ih =>
    simp only [insertSorted] at h
    by_cases h1 : cmp e.key x.key < 0
    · rw [if_pos h1] at h
      simp only [Option.some.injEq] at h
      rw [← h]
    · rw [if_neg h1] at h
      by_cases h2 : cmp e.key x.key = 0
      · rw [if_pos h2] at h
        simp at h
      · rw [if_neg h2] at h
        cases hrec : insertSorted cmp e xs with
        | none => rw [hrec] at h; simp at h
        | some xs2 =>
          rw [hrec] at h
          simp only [Option.map_some', Option.some.injEq] at h
          rw [← h]
          exact (List.Perm.cons x (ih xs2 hrec)).trans (List.Perm.swap e x xs)

theorem insertSorted_sorted {cmp : List Nat → List Nat → Int}
    (hasym : CmpAsym cmp) (htrans : CmpTrans cmp) (e : KtfMapElem)
    (l l2 : List KtfMapElem) (hs : MapSorted cmp l)
    (h : insertSorted cmp e l = some l2) : MapSorted cmp l2 := by
  induction l generalizing l2 with
  | nil =>
    simp only [insertSorted, Option.some.injEq] at h
    rw [← h]
    exact List.pairwise_singleton _ _
  | cons x xs ih =>
    obtain ⟨hx, hxs⟩ := List.pairwise_cons.mp hs
    simp only [insertSorted] at h
    by_cases h1 : cmp e.key x.key < 0
    · rw [if_pos h1] at h
      simp only [Option.some.injEq] at h
      rw [← h]
      refine List.Pairwise.cons ?_ (List.Pairwise.cons hx hxs)
      intro y hy
      rcases List.mem_cons.mp hy with hy | hy
      · rw [hy]; exact h1
      · exact htrans e.key x.key y.key h1 (hx y hy)
    · rw [if_neg h1] at h
      by_cases h2 : cmp e.key x.key = 0
      · rw [if_pos h2] at h
        simp at h
      · rw [if_neg h2] at h
        cases hrec : insertSorted cmp e xs with
        | none => rw [hrec] at h; simp at h
        | some xs2 =>
          rw [hrec] at h
          simp only [Option.map_some', Option.some.injEq] at h
          rw [← h]
          refine List.Pairwise.cons ?_ (ih xs2 hxs hrec)
          intro y hy
          have hmem := (insertSorted_perm cmp e xs xs2 hrec).mem_iff.mp hy
          rcases List.mem_cons.mp hmem with hy2 | hy2
          · rw [hy2]
            have := hasym x.key e.key
            omega
          · exact hx y hy2

theorem insertAll_sorted {cmp : List Nat → List Nat → Int}
    (hasym : CmpAsym cmp) (htrans : CmpTrans cmp) (es : List KtfMapElem) :
    ∀ (m m2 : KtfMap), MapSorted cmp m → insertAll cmp m es = some m2 →
      MapSorted cmp m2 := by
  induction es with
  | nil =>
    intro m m2 hs h
    simp only [insertAll, Option.some.injEq] at h
    rw [← h]
    exact hs
  | cons e es ih =>
    intro m m2 hs h
    simp only [insertAll] at h
    cases hins : ktf_map_insert cmp m e with
    | none => rw [hins] at h; simp at h
    | some m1 =>
      rw [hins] at h
      simp only [Option.some_bind] at h
      unfold ktf_map_insert at hins
      exact ih m1 m2 (insertSorted_sorted hasym htrans _ m m1 hs hins) h

theorem sorted_head_min {cmp : List Nat → List Nat → Int}
    (hasym : CmpAsym cmp) (l : List KtfMapElem) (hs : MapSorted cmp l)
    (f : KtfMapElem) (hf : l.head? = some f) :
    f ∈ l ∧ ∀ e ∈ l, cmp f.key e.key ≤ 0 := by
  cases l with
  | nil => simp at hf
  | cons x xs =>
    simp only [List.head?_cons, Option.some.injEq] at hf
    rw [← hf]
    have hs2 := List.pairwise_cons.mp hs
    refine ⟨List.mem_cons_self x xs, ?_⟩
    intro e he
    rcases List.mem_cons.mp he with he | he
    · rw [he]
      exact le_of_eq (cmp_self_eq_zero hasym x.key)
    · exact le_of_lt (hs2.1 e he)

/- ### Claim theorems C5, C9 -/

/-- C5: on a map built by any sequence of successful inserts (distinct
keys are enforced by insert itself) under a lawful comparator,
`find_first` returns none exactly on the empty map and otherwise a
borrowed element of the map whose key is minimal per the comparator, and
the traversal sequence is monotonically non-decreasing (indeed strictly
ascending) in comparator order. -/
theorem simplemap_find_first_min {cmp : List Nat → List Nat → Int}
    (hasym : CmpAsym cmp) (htrans : CmpTrans cmp)
    (es : List KtfMapElem) (m : KtfMap)
    (hbuild : insertAll cmp ktf_map_init es = some m) :
    MapSorted cmp m ∧
      m.Pairwise (fun a b => cmp a.key b.key ≤ 0) ∧
      (m = [] → ktf_map_find_first m = none) ∧
      ∀ f, ktf_map_find_first m = some f →
        f ∈ m ∧ ∀ e ∈ m, cmp f.key e.key ≤ 0 := by
  have hs : MapSorted cmp m :=
    insertAll_sorted hasym htrans es ktf_map_init m (List.Pairwise.nil) hbuild
  refine ⟨hs, hs.imp le_of_lt, ?_, ?_⟩
  · intro hnil
    rw [hnil]
    rfl
  · intro f hf
    exact sorted_head_min hasym m hs f hf

/-- The map the `simplemap` test builds: inserting elements keyed by the
strings foo, bar, zax (payload indices 0, 1, 2) under the default
comparator sorts them as bar, foo, zax, each holding the caller's plus the
container's reference. -/
def simplemapResult : KtfMap :=
  [{ id := 1, key := [98, 97, 114], refcount := 2 },
    { id := 0, key := [102, 111, 111], refcount := 2 },
    { id := 2, key := [122, 97, 120], refcount := 2 }]

/-- Witness for C5: the `simplemap` insertion sequence foo, bar, zax under
the default byte-wise comparator yields the alphabetically sorted map with
the element keyed bar first. -/
theorem simplemap_find_first_min_witness :
    insertAll strcmpBytes ktf_map_init
        [ktf_map_elem_init 0 [102, 111, 111], ktf_map_elem_init 1 [98, 97, 114],
          ktf_map_elem_init 2 [122, 97, 120]] = some simplemapResult ∧
      (MapSorted strcmpBytes simplemapResult ∧
        simplemapResult.Pairwise (fun a b => strcmpBytes a.key b.key ≤ 0) ∧
        (simplemapResult = [] → ktf_map_find_first simplemapResult = none) ∧
        ∀ f, ktf_map_find_first simplemapResult = some f →
          f ∈ simplemapResult ∧
            ∀ e ∈ simplemapResult, strcmpBytes f.key e.key ≤ 0) :=
  ⟨by decide,
    simplemap_find_first_min strcmpBytes_asym strcmpBytes_trans
      [ktf_map_elem_init 0 [102, 111, 111], ktf_map_elem_init 1 [98, 97, 114],
        ktf_map_elem_init 2 [122, 97, 120]]
      simplemapResult (by decide)⟩

/-- C9: removing by the key of an element that is in a (sorted, as every
map built by inserts is) map hands back that very element object —
identical in identity, key and refcount, so the intrusive payload around
it stays accessible — together with the map less that element. -/
theorem remove_returns_inserted_elem {cmp : List Nat → List Nat → Int}
    (hasym : CmpAsym cmp) (m : KtfMap) (e : KtfMapElem)
    (hs : MapSorted cmp m) (hmem : e ∈ m) :
    ∃ m2, ktf_map_remove cmp m e.key = some (e, m2) := by
  induction m with
  | nil => simp at hmem
  | cons x xs ih =>
    obtain ⟨hx, hxs⟩ := List.pairwise_cons.mp hs
    rcases List.mem_cons.mp hmem with he | he
    · refine ⟨xs, ?_⟩
      rw [he]
      unfold ktf_map_remove removeKey
      rw [if_pos (cmp_self_eq_zero hasym x.key)]
    · have hlt : cmp x.key e.key < 0 := hx e he
      have hne : ¬cmp e.key x.key = 0 := by
        have := hasym e.key x.key
        omega
      obtain ⟨m2, hm2⟩ := ih hxs he
      refine ⟨x :: m2, ?_⟩
      unfold ktf_map_remove removeKey
      rw [if_neg hne]
      unfold ktf_map_remove at hm2
      rw [hm2]
      rfl

/-- Witness for C9: removing by the key bar from the sorted `simplemap`
map returns exactly the element that was inserted under bar, payload index
1 and refcount intact. -/
theorem remove_returns_inserted_elem_witness :
    MapSorted strcmpBytes simplemapResult ∧
      KtfMapElem.mk 1 [98, 97, 114] 2 ∈ simplemapResult ∧
      ∃ m2, ktf_map_remove strcmpBytes simplemapResult [98, 97, 114] =
        some (KtfMapElem.mk 1 [98, 97, 114] 2, m2) :=
  ⟨by decide, by decide,
    remove_returns_inserted_elem strcmpBytes_asym simplemapResult
      (KtfMapElem.mk 1 [98, 97, 114] 2) (by decide) (by decide)⟩

/- ### Sequences of inserts and removes (C8) -/

/-- A successful mutation of the map: one insert of an element or one
remove by key. -/
inductive MapOp
  | ins (e : KtfMapElem)
  | rem (k : List Nat)
deriving DecidableEq, Repr

/-- Apply one mutation; it must succeed (duplicate insert or missing key
fails the whole run). -/
def applyOp (cmp : List Nat → List Nat → Int) (m : KtfMap) :
    MapOp → Option KtfMap
  | MapOp.ins e => ktf_map_insert cmp m e
  | MapOp.rem k => (ktf_map_remove cmp m k).map (fun p => p.2)

/-- Apply a sequence of mutations, all of which must succeed. -/
def applyOps (cmp : List Nat → List Nat → Int) :
    KtfMap → List MapOp → Option KtfMap
  | m, [] => some m
  | m, op :: ops => (applyOp cmp m op).bind (fun m1 => applyOps cmp m1 ops)

def countIns : List MapOp → Nat
  | [] => 0
  | MapOp.ins _ :: ops => countIns ops + 1
  | MapOp.rem _ :: ops => countIns ops

def countRem : List MapOp → Nat
  | [] => 0
  | MapOp.ins _ :: ops => countRem ops
  | MapOp.rem _ :: ops => countRem ops + 1

theorem removeKey_length (cmp : List Nat → List Nat → Int) (k : List Nat) :
    ∀ (l : List KtfMapElem) (e : KtfMapElem) (l2 : List KtfMapElem),
      removeKey cmp k l = some (e, l2) → l.length = l2.length + 1 := by
  intro l
  induction l with
  | nil => intro e l2 h; simp [removeKey] at h
  | cons x xs ih =>
    intro e l2 h
    simp only [removeKey] at h
    by_cases h0 : cmp k x.key = 0
    · rw [if_pos h0] at h
      simp only [Option.some.injEq, Prod.mk.injEq] at h
      rw [← h.2]
      simp
    · rw [if_neg h0] at h
      cases hrec : removeKey cmp k xs with
      | none => rw [hrec] at h; simp at h
      | some p =>
        rw [hrec] at h
        simp only [Option.map_some', Option.some.injEq] at h
        have h2 : x :: p.2 = l2 := congrArg Prod.snd h
        have hlen := ih p.1 p.2 (by rw [hrec])
        rw [← h2]
        simp only [List.length_cons]
        omega

theorem ktf_map_insert_size (cmp : List Nat → List Nat → Int) (m : KtfMap)
    (e : KtfMapElem) (m2 : KtfMap) (h : ktf_map_insert cmp m e = some m2) :
    ktf_map_size m2 = ktf_map_size m + 1 := by
  unfold ktf_map_insert at h
  have hp := (insertSorted_perm cmp _ m m2 h).length_eq
  simpa [ktf_map_size] using hp

theorem ktf_map_remove_size (cmp : List Nat → List Nat → Int) (m : KtfMap)
    (k : List Nat) (e : KtfMapElem) (m2 : KtfMap)
    (h : ktf_map_remove cmp m k = some (e, m2)) :
    ktf_map_size m = ktf_map_size m2 + 1 := by
  unfold ktf_map_remove at h
  exact removeKey_length cmp k m e m2 h

theorem applyOps_size (cmp : List Nat → List Nat → Int) :
    ∀ (ops : List MapOp) (m m2 : KtfMap), applyOps cmp m ops = some m2 →
      (ktf_map_size m2 : Int) =
        ktf_map_size m + countIns ops - countRem ops := by
  intro ops
  induction ops with
  | nil =>
    intro m m2 h
    simp only [applyOps, Option.some.injEq] at h
    rw [← h]
    simp [countIns, countRem]
  | cons op ops ih =>
    intro m m2 h
    simp only [applyOps] at h
    cases hstep : applyOp cmp m op with
    | none => rw [hstep] at h; simp at h
    | some m1 =>
      rw [hstep] at h
      simp only [Option.some_bind] at h
      have hrec := ih m1 m2 h
      cases op with
      | ins e =>
        simp only [applyOp] at hstep
        have hsz := ktf_map_insert_size cmp m e m1 hstep
        simp only [countIns, countRem]
        omega
      | rem k =>
        simp only [applyOp] at hstep
        cases hrem : ktf_map_remove cmp m k with
        | none => rw [hrem] at hstep; simp at hstep
        | some p =>
          rw [hrem] at hstep
          simp only [Option.map_some', Option.some.injEq] at hstep
          have hsz := ktf_map_remove_size cmp m k p.1 p.2 (by rw [hrem])
          rw [← hstep] at hrec
          simp only [countIns, countRem]
          omega

/-- C8: after any sequence of successful inserts and removes from an empty
map, the size equals the number of inserts minus the number of removes
(never negative, removes never exceeding inserts), each successful insert
raising it by exactly one and each successful remove lowering it by
exactly one. -/
theorem simplemap_size_tracks_ops (cmp : List Nat → List Nat → Int)
    (ops : List MapOp) (m2 : KtfMap)
    (hrun : applyOps cmp ktf_map_init ops = some m2) :
    (ktf_map_size m2 : Int) = countIns ops - countRem ops ∧
      countRem ops ≤ countIns ops ∧
      (∀ (m m3 : KtfMap) (e : KtfMapElem), ktf_map_insert cmp m e = some m3 →
        ktf_map_size m3 = ktf_map_size m + 1) ∧
      ∀ (m m3 : KtfMap) (k : List Nat) (e : KtfMapElem),
        ktf_map_remove cmp m k = some (e, m3) →
        ktf_map_size m3 + 1 = ktf_map_size m := by
  have hmain := applyOps_size cmp ops ktf_map_init m2 hrun
  have h0 : ktf_map_size ktf_map_init = 0 := rfl
  rw [h0] at hmain
  refine ⟨by omega, by omega, ?_, ?_⟩
  · intro m m3 e h
    exact ktf_map_insert_size cmp m e m3 h
  · intro m m3 k e h
    have hsz := ktf_map_remove_size cmp m k e m3 h
    omega

/-- Witness for C8: the `simplemap` sequence — insert foo, bar, zax, then
remove each of them — performs 3 inserts and 3 removes and ends with size
0, with the per-operation size steps holding as stated. -/
theorem simplemap_size_tracks_ops_witness :
    applyOps strcmpBytes ktf_map_init
        [MapOp.ins (ktf_map_elem_init 0 [102, 111, 111]),
          MapOp.ins (ktf_map_elem_init 1 [98, 97, 114]),
          MapOp.ins (ktf_map_elem_init 2 [122, 97, 120]),
          MapOp.rem [102, 111, 111], MapOp.rem [98, 97, 114],
          MapOp.rem [122, 97, 120]] = some ktf_map_init ∧
      ((ktf_map_size ktf_map_init : Int) =
          countIns
              [MapOp.ins (ktf_map_elem_init 0 [102, 111, 111]),
                MapOp.ins (ktf_map_elem_init 1 [98, 97, 114]),
                MapOp.ins (ktf_map_elem_init 2 [122, 97, 120]),
                MapOp.rem [102, 111, 111], MapOp.rem [98, 97, 114],
                MapOp.rem [122, 97, 120]] -
            countRem
              [MapOp.ins (ktf_map_elem_init 0 [102, 111, 111]),
                MapOp.ins (ktf_map_elem_init 1 [98, 97, 114]),
                MapOp.ins (ktf_map_elem_init 2 [122, 97, 120]),
                MapOp.rem [102, 111, 111], MapOp.rem [98, 97, 114],
                MapOp.rem [122, 97, 120]] ∧
        countRem
            [MapOp.ins (ktf_map_elem_init 0 [102, 111, 111]),
              MapOp.ins (ktf_map_elem_init 1 [98, 97, 114]),
              MapOp.ins (ktf_map_elem_init 2 [122, 97, 120]),
              MapOp.rem [102, 111, 111], MapOp.rem [98, 97, 114],
              MapOp.rem [122, 97, 120]] ≤
          countIns
            [MapOp.ins (ktf_map_elem_init 0 [102, 111, 111]),
              MapOp.ins (ktf_map_elem_init 1 [98, 97, 114]),
              MapOp.ins (ktf_map_elem_init 2 [122, 97, 120]),
              MapOp.rem [102, 111, 111], MapOp.rem [98, 97, 114],
              MapOp.rem [122, 97, 120]] ∧
        (∀ (m m3 : KtfMap) (e : KtfMapElem),
          ktf_map_insert strcmpBytes m e = some m3 →
          ktf_map_size m3 = ktf_map_size m + 1) ∧
        ∀ (m m3 : KtfMap) (k : List Nat) (e : KtfMapElem),
          ktf_map_remove strcmpBytes m k = some (e, m3) →
          ktf_map_size m3 + 1 = ktf_map_size m) :=
  ⟨by decide,
    simplemap_size_tracks_ops strcmpBytes
      [MapOp.ins (ktf_map_elem_init 0 [102, 111, 111]),
        MapOp.ins (ktf_map_elem_init 1 [98, 97, 114]),
        MapOp.ins (ktf_map_elem_init 2 [122, 97, 120]),
        MapOp.rem [102, 111, 111], MapOp.rem [98, 97, 114],
        MapOp.rem [122, 97, 120]] ktf_map_init (by decide)⟩
